import Mathlib

/-!
Verification of the Project Import & Windowed Word-Stream Persistence Engine
of the blip speed-reading application (src-tauri/src/lib.rs).

Modelling conventions:
* A text resource is the sequence of lines produced by `BufReader::lines()`.
  Each line is `Option (List Char)`: `none` models a line that failed to
  decode (both scans skip such lines via `if let Ok(line)`), `some cs`
  models a decoded line with characters `cs`.
* Rust's `str::split_whitespace` (maximal runs of non-whitespace
  characters) is embedded as `splitWhitespace` below.
* Machine integers (`usize`) are modelled as `Nat`; the word counts and
  indices involved are far below overflow so no modular wrap is modelled.
* Filesystem state for the JSON stores is modelled by `Doc`: the backing
  file is `missing`, `unreadable` (read_to_string fails), or `present r`
  where `r : Option (List α)` is the serde parse result (`none` =
  malformed content).
* Clock reads (`chrono::Utc::now().to_rfc3339()`) and UUID generation are
  passed as explicit parameters.
-/

/-- Rust `str::split_whitespace`: maximal runs of non-whitespace characters,
accumulated left to right. `cur` is the (reversed) run currently being read. -/
def splitWhitespaceAux : List Char → List Char → List (List Char)
  | [], [] => []
  | [], cur => [cur.reverse]
  | c :: cs, cur =>
    if c.isWhitespace then
      if cur = [] then splitWhitespaceAux cs []
      else cur.reverse :: splitWhitespaceAux cs []
    else splitWhitespaceAux cs (c :: cur)

/-- Rust `line.split_whitespace()` as a list of words. -/
def splitWhitespace (line : List Char) : List (List Char) :=
  splitWhitespaceAux line []

/-- The words of one `BufReader::lines()` item: a line that fails to decode
contributes no words (both scans skip it with `if let Ok(line)`). -/
def lineWords : Option (List Char) → List (List Char)
  | none => []
  | some l => splitWhitespace l

/-- The full tokenization of a resource, in file order. -/
def tokens (lines : List (Option (List Char))) : List (List Char) :=
  (lines.map lineWords).flatten

/-- The word-count loop of `import_file` (lib.rs lines 114-122):
`word_count += line.split_whitespace().count()` over all `Ok` lines. -/
def import_word_count : List (Option (List Char)) → Nat
  | [] => 0
  | none :: ls => import_word_count ls
  | some l :: ls => (splitWhitespace l).length + import_word_count ls

/-- Inner loop of `load_word_buffer` (lib.rs lines 146-155): one line's
words; `words` is the accumulator, `idx` the running absolute index.
Returns the accumulator and index after the line (or after the `break`). -/
def lwbLine (start bufSize : Nat) :
    List (List Char) → List (List Char) → Nat → List (List Char) × Nat
  | [], words, idx => (words, idx)
  | w :: ws, words, idx =>
    let words' := if start ≤ idx ∧ words.length < bufSize then words ++ [w] else words
    if bufSize ≤ words'.length then (words', idx + 1)
    else lwbLine start bufSize ws words' (idx + 1)

/-- Outer loop of `load_word_buffer` (lib.rs lines 144-160) over the lines;
lines that fail to decode are skipped. -/
def lwbLines (start bufSize : Nat) :
    List (Option (List Char)) → List (List Char) → Nat → List (List Char)
  | [], words, _ => words
  | none :: ls, words, idx => lwbLines start bufSize ls words idx
  | some l :: ls, words, idx =>
    let r := lwbLine start bufSize (splitWhitespace l) words idx
    if bufSize ≤ r.1.length then r.1
    else lwbLines start bufSize ls r.1 r.2

/-- `load_word_buffer(path, start_index, buffer_size)` (lib.rs lines
137-163), applied to the resource's lines. The `fs::File::open` failure
path returns an error string and is outside the claims below, so the
function is modelled on an already-opened resource. -/
def load_word_buffer (lines : List (Option (List Char)))
    (start_index buffer_size : Nat) : List (List Char) :=
  lwbLines start_index buffer_size lines [] 0

/-- `FileMetadata` (lib.rs lines 20-28); the spec names it ProjectMetadata. -/
structure FileMetadata where
  id : String
  filename : String
  saved_path : String
  total_words : Nat
  current_word_index : Nat
  created_at : String
deriving DecidableEq

/-- `ProjectSettings` (lib.rs lines 30-40). `f64` fields are stored and
returned verbatim, never computed with, so `Float` is only a payload. -/
structure ProjectSettings where
  time_per_word : Float
  time_per_character : Float
  highlight_orp : Bool
  letter_spacing : Float
  punctuation_delay : Float
  trail_words_count : Int
  chunk_size : Int
  skill_level : Int

/-- `impl Default for ProjectSettings` (lib.rs lines 42-55). -/
def ProjectSettings.default : ProjectSettings :=
  { time_per_word := 35.0
    time_per_character := 25.0
    highlight_orp := true
    letter_spacing := 3.5
    punctuation_delay := 50.0
    trail_words_count := 5
    chunk_size := 1
    skill_level := 1 }

/-- `ProjectSession` (lib.rs lines 57-64). -/
structure ProjectSession where
  session_id : String
  project_id : String
  current_word_index : Nat
  last_read_date : String
  settings : ProjectSettings

/-- State of one backing JSON document: the file is absent, exists but
`fs::read_to_string` fails, or exists with a serde parse result
(`none` = content that fails to parse). -/
inductive Doc (α : Type) where
  | missing : Doc α
  | unreadable (msg : String) : Doc α
  | present (parsed : Option (List α)) : Doc α

/-- The load-existing phase shared by the three save commands (lib.rs
lines 172-177, 216-221, 253-258): a missing file yields the empty vector,
a read failure propagates, parse failures collapse to the empty vector
via `unwrap_or_default`. -/
def readCollection {α : Type} : Doc α → Except String (List α)
  | .missing => .ok []
  | .unreadable e => .error e
  | .present r => .ok (r.getD [])

/-- `iter_mut().find(p)` followed by a mutation of the found element:
rewrites the first element satisfying `p`, leaves everything else alone. -/
def updateFirst {α : Type} (p : α → Bool) (f : α → α) : List α → List α
  | [] => []
  | x :: xs => if p x then f x :: xs else x :: updateFirst p f xs

/-- Update-or-append step of `save_project_metadata` (lib.rs lines
180-184), keyed on `id`. -/
def upsertProject (projects : List FileMetadata) (metadata : FileMetadata) :
    List FileMetadata :=
  if projects.any (fun p => p.id == metadata.id) then
    updateFirst (fun p => p.id == metadata.id) (fun _ => metadata) projects
  else
    projects ++ [metadata]

/-- Update-or-append step of `save_session_progress` (lib.rs lines
223-237): an existing session gets only `current_word_index` and
`last_read_date` overwritten; otherwise a new session with default
settings is pushed. -/
def upsertProgress (sessions : List ProjectSession) (project_id : String)
    (word_index : Nat) (now : String) : List ProjectSession :=
  if sessions.any (fun s => s.project_id == project_id) then
    updateFirst (fun s => s.project_id == project_id)
      (fun s => { s with current_word_index := word_index, last_read_date := now })
      sessions
  else
    sessions ++ [{ session_id := project_id ++ "_session"
                   project_id := project_id
                   current_word_index := word_index
                   last_read_date := now
                   settings := ProjectSettings.default }]

/-- Update-or-append step of `save_project_settings` (lib.rs lines
260-273): an existing session gets only `settings` and `last_read_date`
overwritten; otherwise a new session with `current_word_index = 0` is
pushed. -/
def upsertSettings (sessions : List ProjectSession) (project_id : String)
    (settings : ProjectSettings) (now : String) : List ProjectSession :=
  if sessions.any (fun s => s.project_id == project_id) then
    updateFirst (fun s => s.project_id == project_id)
      (fun s => { s with settings := settings, last_read_date := now })
      sessions
  else
    sessions ++ [{ session_id := project_id ++ "_session"
                   project_id := project_id
                   current_word_index := 0
                   last_read_date := now
                   settings := settings }]

/-- `save_project_metadata` (lib.rs lines 166-191). Serialization of the
plain records and `fs::write` succeed for the in-memory values modelled
here, so the write produces a document that parses back to the written
collection. -/
def save_project_metadata (d : Doc FileMetadata) (metadata : FileMetadata) :
    Except String (Doc FileMetadata) := do
  let projects ← readCollection d
  return Doc.present (some (upsertProject projects metadata))

/-- `load_projects` (lib.rs lines 194-207). -/
def load_projects (d : Doc FileMetadata) : Except String (List FileMetadata) :=
  match d with
  | .missing => .ok []
  | .unreadable e => .error e
  | .present r => .ok (r.getD [])

/-- `save_session_progress` (lib.rs lines 210-244). `now` models the
`chrono::Utc::now().to_rfc3339()` call. -/
def save_session_progress (d : Doc ProjectSession) (project_id : String)
    (word_index : Nat) (now : String) : Except String (Doc ProjectSession) := do
  let sessions ← readCollection d
  return Doc.present (some (upsertProgress sessions project_id word_index now))

/-- `save_project_settings` (lib.rs lines 247-280). -/
def save_project_settings (d : Doc ProjectSession) (project_id : String)
    (settings : ProjectSettings) (now : String) :
    Except String (Doc ProjectSession) := do
  let sessions ← readCollection d
  return Doc.present (some (upsertSettings sessions project_id settings now))

/-- `load_project_settings` (lib.rs lines 283-298). -/
def load_project_settings (d : Doc ProjectSession) (project_id : String) :
    Except String (Option ProjectSettings) :=
  match d with
  | .missing => .ok none
  | .unreadable e => .error e
  | .present r =>
    .ok (((r.getD []).find? (fun s => s.project_id == project_id)).map
      (fun s => s.settings))

/-- `load_session_progress` (lib.rs lines 301-316). -/
def load_session_progress (d : Doc ProjectSession) (project_id : String) :
    Except String (Option Nat) :=
  match d with
  | .missing => .ok none
  | .unreadable e => .error e
  | .present r =>
    .ok (((r.getD []).find? (fun s => s.project_id == project_id)).map
      (fun s => s.current_word_index))

/-- Result of a successful import: the returned metadata, and the content
of the private copy created under `files/`. -/
structure ImportResult where
  meta : FileMetadata
  savedContent : List (Option (List Char))

/-- `import_file` (lib.rs lines 92-134). `files_dir` models the
`app_data_dir()/files` directory, `file_name` the result of the
`PathBuf::file_name()` call on `original_path` (`none` when no file name
component is extractable), `sourceContent` the byte content of the source
file, `project_id` the freshly generated UUID and `now` the clock read.
Directory creation, `fs::copy` and re-opening the fresh copy succeed in
the runs modelled here; `fs::copy` duplicates the content verbatim, and
the word count is then taken over that copy. -/
def import_file (files_dir : String) (file_name : Option String)
    (sourceContent : List (Option (List Char))) (project_id now : String) :
    Except String ImportResult :=
  match file_name with
  | none => .error "Invalid file name"
  | some filename =>
    let safe_filename := project_id ++ "_" ++ filename
    let saved_path := files_dir ++ "/" ++ safe_filename
    let savedContent := sourceContent
    .ok { meta := { id := project_id
                    filename := filename
                    saved_path := saved_path
                    total_words := import_word_count savedContent
                    current_word_index := 0
                    created_at := now }
          savedContent := savedContent }

def sampleMeta : FileMetadata :=
  { id := "id0", filename := "a.txt", saved_path := "files/id0_a.txt",
    total_words := 3, current_word_index := 0, created_at := "t0" }

def sampleMeta2 : FileMetadata :=
  { id := "id0", filename := "b.txt", saved_path := "files/id0_b.txt",
    total_words := 4, current_word_index := 1, created_at := "t1" }

def otherMeta : FileMetadata :=
  { id := "idX", filename := "c.txt", saved_path := "files/idX_c.txt",
    total_words := 5, current_word_index := 2, created_at := "t2" }

def sampleSession : ProjectSession :=
  { session_id := "p_session", project_id := "p", current_word_index := 7,
    last_read_date := "t0", settings := ProjectSettings.default }

theorem lwbLine_fst (start b : Nat) :
    ∀ (ws words : List (List Char)) (idx : Nat),
      (lwbLine start b ws words idx).1 =
        words ++ ((ws.drop (start - idx)).take (b - words.length)) := by
  intro ws
  induction ws with
  | nil => intro words idx; simp [lwbLine]
  | cons w ws ih =>
    intro words idx
    simp only [lwbLine]
    by_cases hc : start ≤ idx ∧ words.length < b
    · have hs : start - idx = 0 := Nat.sub_eq_zero_of_le hc.1
      simp only [if_pos hc]
      by_cases hb : b ≤ (words ++ [w]).length
      · simp only [if_pos hb]
        simp only [List.length_append, List.length_cons, List.length_nil] at hb
        have hlen : b - words.length = 1 := by omega
        simp [hs, hlen]
      · simp only [if_neg hb]
        rw [ih]
        simp only [List.length_append, List.length_cons, List.length_nil] at hb ⊢
        have hs1 : start - (idx + 1) = 0 := by omega
        have htk : b - words.length = (b - (words.length + 1)) + 1 := by omega
        simp [hs, hs1, htk, List.append_assoc]
    · simp only [if_neg hc]
      push_neg at hc
      by_cases hb : b ≤ words.length
      · simp only [if_pos hb]
        have : b - words.length = 0 := Nat.sub_eq_zero_of_le hb
        simp [this]
      · simp only [if_neg hb]
        have hlt : idx < start := by
          rcases Nat.lt_or_ge idx start with h | h
          · exact h
          · exact absurd (hc h) (by omega)
        rw [ih]
        have hds : start - idx = (start - (idx + 1)) + 1 := by omega
        simp [hds]

theorem lwbLine_snd (start b : Nat) :
    ∀ (ws words : List (List Char)) (idx : Nat),
      (lwbLine start b ws words idx).1.length < b →
      (lwbLine start b ws words idx).2 = idx + ws.length := by
  intro ws
  induction ws with
  | nil => intro words idx _; simp [lwbLine]
  | cons w ws ih =>
    intro words idx h
    simp only [lwbLine] at h ⊢
    by_cases hb : b ≤ (if start ≤ idx ∧ words.length < b then words ++ [w] else words).length
    · simp only [if_pos hb] at h
      exact absurd h (by omega)
    · simp only [if_neg hb] at h ⊢
      rw [ih _ _ h]
      simp only [List.length_cons]
      omega

theorem lwbLines_eq (start b : Nat) :
    ∀ (ls : List (Option (List Char))) (words : List (List Char)) (idx : Nat),
      words.length ≤ b →
      lwbLines start b ls words idx =
        words ++ ((tokens ls).drop (start - idx)).take (b - words.length) := by
  intro ls
  induction ls with
  | nil => intro words idx _; simp [lwbLines, tokens]
  | cons o ls ih =>
    intro words idx hw
    cases o with
    | none =>
      simp only [lwbLines, tokens, List.map_cons, List.flatten_cons, lineWords,
        List.nil_append]
      exact ih words idx hw
    | some l =>
      simp only [lwbLines, tokens, List.map_cons, List.flatten_cons, lineWords]
      have hfst := lwbLine_fst start b (splitWhitespace l) words idx
      set L := splitWhitespace l with hL
      set T := (ls.map lineWords).flatten with hT
      set r := lwbLine start b L words idx with hr
      have hlen : r.1.length =
          words.length + min (b - words.length) ((L.drop (start - idx)).length) := by
        rw [hfst]; simp [List.length_take]
      by_cases hb : b ≤ r.1.length
      · simp only [if_pos hb]
        rw [hfst]
        have hdl : b - words.length ≤ (L.drop (start - idx)).length := by omega
        rw [List.drop_append_eq_append_drop, List.take_append_eq_append_take]
        have h0 : b - words.length - (L.drop (start - idx)).length = 0 := by omega
        rw [h0, List.take_zero, List.append_nil]
      · simp only [if_neg hb]
        have hlt : r.1.length < b := by omega
        have hsnd : r.2 = idx + L.length := lwbLine_snd start b L words idx hlt
        rw [ih r.1 r.2 (Nat.le_of_lt hlt), hfst, hsnd,
          List.drop_append_eq_append_drop, List.take_append_eq_append_take]
        have e1 : start - (idx + L.length) = start - idx - L.length := by omega
        have e2 : b - (words ++ (L.drop (start - idx)).take (b - words.length)).length
            = b - words.length - (L.drop (start - idx)).length := by
          simp only [List.length_append, List.length_take]
          omega
        rw [e1, e2, List.append_assoc]
        rfl

/-- The window returned by `load_word_buffer` is exactly the
`[start_index, start_index + buffer_size)` slice of the tokenization. -/
theorem load_word_buffer_eq (lines : List (Option (List Char)))
    (start_index buffer_size : Nat) :
    load_word_buffer lines start_index buffer_size =
      ((tokens lines).drop start_index).take buffer_size := by
  have h := lwbLines_eq start_index buffer_size lines [] 0 (Nat.zero_le _)
  simpa [load_word_buffer] using h

theorem import_word_count_eq (lines : List (Option (List Char))) :
    import_word_count lines = (tokens lines).length := by
  induction lines with
  | nil => simp [import_word_count, tokens]
  | cons o ls ih =>
    cases o with
    | none => simp [import_word_count, tokens, lineWords, ih]
    | some l =>
      simp [import_word_count, tokens, lineWords, List.flatten_cons] at ih ⊢
      omega

/-- C1: Tokenization consistency — the word count computed by the
`import_file` scan equals the length of the window returned by
`load_word_buffer(path, 0, count)` when `count` is that total: both scans
agree on the whitespace tokenization of the same resource. -/
theorem tokenization_consistency (lines : List (Option (List Char))) :
    (load_word_buffer lines 0 (import_word_count lines)).length =
      import_word_count lines := by
  rw [load_word_buffer_eq, import_word_count_eq]
  simp

/-- C2: Window length guarantee — `load_word_buffer` returns exactly
`min(buffer_size, max(0, total_words - start_index))` words (`Nat`
subtraction is truncated, so it already is `max 0` of the difference);
in particular the window is empty whenever `start_index ≥ total_words`
(which covers `buffer_size = 0` as well, since `min 0 _ = 0`). -/
theorem window_length_guarantee (lines : List (Option (List Char)))
    (start_index buffer_size : Nat) :
    (load_word_buffer lines start_index buffer_size).length =
        min buffer_size (import_word_count lines - start_index) ∧
      (import_word_count lines ≤ start_index →
        load_word_buffer lines start_index buffer_size = []) := by
  rw [load_word_buffer_eq, import_word_count_eq]
  constructor
  · simp [List.length_take, List.length_drop]
  · intro h
    rw [List.drop_eq_nil_of_le (by simpa using h), List.take_nil]

theorem window_length_guarantee_witness :
    (load_word_buffer [some "alpha beta gamma".data] 5 2).length =
        min 2 (import_word_count [some "alpha beta gamma".data] - 5) ∧
      load_word_buffer [some "alpha beta gamma".data] 5 2 = [] := by
  have h := window_length_guarantee [some "alpha beta gamma".data] 5 2
  exact ⟨h.1, h.2 (by decide)⟩

/-- C3: Window concatenation — for `0 ≤ k ≤ total`, the window
`[0, k)` followed by the window `[k, total)` is the full tokenization
of the resource, in order. -/
theorem window_concatenation (lines : List (Option (List Char))) (k : Nat)
    (_h : k ≤ import_word_count lines) :
    load_word_buffer lines 0 k ++
        load_word_buffer lines k (import_word_count lines - k) =
      tokens lines := by
  rw [load_word_buffer_eq, load_word_buffer_eq, import_word_count_eq,
    List.drop_zero]
  have hlen : ((tokens lines).drop k).length ≤ (tokens lines).length - k := by
    simp [List.length_drop]
  rw [List.take_of_length_le hlen]
  exact List.take_append_drop k (tokens lines)

theorem window_concatenation_witness :
    load_word_buffer [some "alpha beta gamma".data] 0 1 ++
        load_word_buffer [some "alpha beta gamma".data] 1
          (import_word_count [some "alpha beta gamma".data] - 1) =
      tokens [some "alpha beta gamma".data] :=
  window_concatenation [some "alpha beta gamma".data] 1 (by decide)

theorem updateFirst_length {α : Type} (p : α → Bool) (f : α → α) (l : List α) :
    (updateFirst p f l).length = l.length := by
  induction l with
  | nil => rfl
  | cons x xs ih =>
    simp only [updateFirst]
    by_cases hp : p x = true
    · simp [if_pos hp]
    · simp [if_neg hp, ih]

theorem updateFirst_getElem? {α : Type} (p : α → Bool) (f : α → α)
    (l : List α) (i : Nat) (h : ∀ a, l[i]? = some a → p a = false) :
    (updateFirst p f l)[i]? = l[i]? := by
  induction l generalizing i with
  | nil => rfl
  | cons x xs ih =>
    simp only [updateFirst]
    by_cases hp : p x = true
    · rw [if_pos hp]
      cases i with
      | zero =>
        have hx := h x (by simp)
        rw [hx] at hp
        cases hp
      | succ j => simp
    · rw [if_neg hp]
      cases i with
      | zero => simp
      | succ j =>
        simpa using ih j (fun a ha => h a (by simpa using ha))

theorem updateFirst_of_forall_neg {α : Type} (p : α → Bool) (f : α → α)
    (l : List α) (h : ∀ x ∈ l, p x = false) :
    updateFirst p f l = l := by
  induction l with
  | nil => rfl
  | cons x xs ih =>
    simp only [updateFirst]
    rw [if_neg (by simp [h x (by simp)]), ih (fun a ha => h a (by simp [ha]))]

theorem updateFirst_append_left_neg {α : Type} (p : α → Bool) (f : α → α)
    (l l' : List α) (h : ∀ x ∈ l, p x = false) :
    updateFirst p f (l ++ l') = l ++ updateFirst p f l' := by
  induction l with
  | nil => simp
  | cons x xs ih =>
    simp only [List.cons_append, updateFirst]
    rw [if_neg (by simp [h x (by simp)])]
    simp only [List.append_eq]
    rw [ih (fun a ha => h a (by simp [ha]))]

theorem find?_updateFirst {α : Type} (p : α → Bool) (f : α → α) (l : List α)
    (hf : ∀ a, p (f a) = p a) :
    (updateFirst p f l).find? p = (l.find? p).map f := by
  induction l with
  | nil => rfl
  | cons x xs ih =>
    simp only [updateFirst]
    by_cases hp : p x = true
    · rw [if_pos hp, List.find?_cons_of_pos _ (by rw [hf]; exact hp),
        List.find?_cons_of_pos _ hp]
      rfl
    · rw [if_neg hp,
        List.find?_cons_of_neg _ (by simpa using hp),
        List.find?_cons_of_neg _ (by simpa using hp), ih]

theorem map_updateFirst {α β : Type} (p : α → Bool) (f : α → α) (g : α → β)
    (l : List α) (h : ∀ a, p a = true → g (f a) = g a) :
    (updateFirst p f l).map g = l.map g := by
  induction l with
  | nil => rfl
  | cons x xs ih =>
    simp only [updateFirst]
    by_cases hp : p x = true
    · rw [if_pos hp]
      simp [h x hp]
    · rw [if_neg hp]
      simp [ih]

theorem any_updateFirst {α : Type} (p : α → Bool) (f : α → α) (l : List α)
    (hf : ∀ a, p (f a) = p a) :
    (updateFirst p f l).any p = l.any p := by
  induction l with
  | nil => rfl
  | cons x xs ih =>
    simp only [updateFirst]
    by_cases hp : p x = true
    · rw [if_pos hp]
      simp [List.any_cons, hf, hp]
    · rw [if_neg hp]
      simp [List.any_cons, ih]

theorem find?_append_left_neg {α : Type} (p : α → Bool) (l l' : List α)
    (h : ∀ x ∈ l, p x = false) :
    (l ++ l').find? p = l'.find? p := by
  induction l with
  | nil => simp
  | cons x xs ih =>
    rw [List.cons_append, List.find?_cons_of_neg _ (by simp [h x (by simp)]),
      ih (fun a ha => h a (by simp [ha]))]

/-- C4: Missing-or-malformed document resilience — a missing backing
document yields the empty collection / absent result, and a document that
exists but fails to parse is likewise treated as empty rather than an
error, on all read paths. -/
theorem missing_or_malformed_resilience (project_id : String) :
    load_projects Doc.missing = Except.ok [] ∧
      load_projects (Doc.present none) = Except.ok [] ∧
      load_session_progress Doc.missing project_id = Except.ok none ∧
      load_session_progress (Doc.present none) project_id = Except.ok none ∧
      load_project_settings Doc.missing project_id = Except.ok none ∧
      load_project_settings (Doc.present none) project_id = Except.ok none :=
  ⟨rfl, rfl, rfl, rfl, rfl, rfl⟩

/-- C5: Session field preservation — when a session for `project_id`
exists, `save_session_progress` rewrites only its `current_word_index` and
`last_read_date` (so `settings` is kept), and `save_project_settings`
rewrites only its `settings` and `last_read_date` (so
`current_word_index` is kept). -/
theorem session_field_preservation (sessions : List ProjectSession)
    (project_id : String) (s : ProjectSession) (word_index : Nat)
    (settings : ProjectSettings) (now₁ now₂ : String)
    (h : sessions.find? (fun t => t.project_id == project_id) = some s) :
    (upsertProgress sessions project_id word_index now₁).find?
        (fun t => t.project_id == project_id) =
      some { s with current_word_index := word_index, last_read_date := now₁ } ∧
    (upsertSettings sessions project_id settings now₂).find?
        (fun t => t.project_id == project_id) =
      some { s with settings := settings, last_read_date := now₂ } := by
  have hfs := List.find?_some h
  have hany : sessions.any (fun t => t.project_id == project_id) = true :=
    List.any_eq_true.mpr ⟨s, List.mem_of_find?_eq_some h, hfs⟩
  constructor
  · rw [upsertProgress, if_pos hany,
      find?_updateFirst (fun t => t.project_id == project_id)
        (fun t => { t with current_word_index := word_index, last_read_date := now₁ })
        sessions (fun a => rfl),
      h]
    rfl
  · rw [upsertSettings, if_pos hany,
      find?_updateFirst (fun t => t.project_id == project_id)
        (fun t => { t with settings := settings, last_read_date := now₂ })
        sessions (fun a => rfl),
      h]
    rfl

theorem session_field_preservation_witness :
    (upsertProgress
          [{ session_id := "p_session", project_id := "p",
             current_word_index := 7, last_read_date := "t0",
             settings := ProjectSettings.default }] "p" 9 "t1").find?
        (fun t => t.project_id == "p") =
      some { session_id := "p_session", project_id := "p",
             current_word_index := 9, last_read_date := "t1",
             settings := ProjectSettings.default } ∧
    (upsertSettings
          [{ session_id := "p_session", project_id := "p",
             current_word_index := 7, last_read_date := "t0",
             settings := ProjectSettings.default }] "p"
          ProjectSettings.default "t2").find?
        (fun t => t.project_id == "p") =
      some { session_id := "p_session", project_id := "p",
             current_word_index := 7, last_read_date := "t2",
             settings := ProjectSettings.default } :=
  session_field_preservation
    [{ session_id := "p_session", project_id := "p", current_word_index := 7,
       last_read_date := "t0", settings := ProjectSettings.default }]
    "p"
    { session_id := "p_session", project_id := "p", current_word_index := 7,
      last_read_date := "t0", settings := ProjectSettings.default }
    9 ProjectSettings.default "t1" "t2" (by rfl)

theorem find?_upsertProgress (sessions : List ProjectSession)
    (project_id : String) (word_index : Nat) (now : String) :
    ((upsertProgress sessions project_id word_index now).find?
        (fun s => s.project_id == project_id)).map
      (fun s => s.current_word_index) = some word_index := by
  cases hany : sessions.any (fun s => s.project_id == project_id) with
  | true =>
    rw [upsertProgress, if_pos hany,
      find?_updateFirst (fun s => s.project_id == project_id)
        (fun t => { t with current_word_index := word_index, last_read_date := now })
        sessions (fun a => rfl)]
    obtain ⟨x, hx, hpx⟩ := List.any_eq_true.mp hany
    have hsome : (sessions.find? (fun s => s.project_id == project_id)).isSome :=
      List.find?_isSome.mpr ⟨x, hx, hpx⟩
    obtain ⟨s, hs⟩ := Option.isSome_iff_exists.mp hsome
    rw [hs]
    rfl
  | false =>
    have hneg : ∀ x ∈ sessions, (x.project_id == project_id) = false :=
      fun x hx => by simpa using List.any_eq_false.mp hany x hx
    rw [upsertProgress, if_neg (by simp [hany]),
      find?_append_left_neg _ _ _ hneg,
      List.find?_cons_of_pos _ (by simp)]
    rfl

/-- C7: Progress round-trip — after a successful
`save_session_progress(id, n)`, `load_session_progress(id)` on the
document it wrote returns `Some n`, whether or not a session for `id`
existed before the save. -/
theorem progress_round_trip (d : Doc ProjectSession) (project_id : String)
    (word_index : Nat) (now : String) (d₁ : Doc ProjectSession)
    (h : save_session_progress d project_id word_index now = Except.ok d₁) :
    load_session_progress d₁ project_id = Except.ok (some word_index) := by
  cases d with
  | missing =>
    simp only [save_session_progress, readCollection, Except.bind, bind,
      pure, Except.pure, Except.ok.injEq] at h
    rw [← h]
    simp only [load_session_progress, Option.getD]
    rw [find?_upsertProgress]
  | unreadable e =>
    simp only [save_session_progress, readCollection, Except.bind, bind,
      pure, Except.pure] at h
    cases h
  | present r =>
    simp only [save_session_progress, readCollection, Except.bind, bind,
      pure, Except.pure, Except.ok.injEq] at h
    rw [← h]
    simp only [load_session_progress, Option.getD]
    rw [find?_upsertProgress]

theorem progress_round_trip_witness :
    load_session_progress
        (Doc.present (some (upsertProgress [] "p" 2 "t0"))) "p" =
      Except.ok (some 2) :=
  progress_round_trip Doc.missing "p" 2 "t0"
    (Doc.present (some (upsertProgress [] "p" 2 "t0"))) (by rfl)

/-- C6: Settings/progress independence — starting from a readable state
with no session for `project_id`, saving progress and then loading
settings yields the documented default settings (present, not absent);
conversely saving settings and then loading progress yields `Some 0`. -/
theorem settings_progress_independence (d : Doc ProjectSession)
    (l : List ProjectSession) (project_id : String) (word_index : Nat)
    (settings : ProjectSettings) (now₁ now₂ : String)
    (hd : readCollection d = Except.ok l)
    (hnone : ∀ s ∈ l, (s.project_id == project_id) = false) :
    (∃ d₁, save_session_progress d project_id word_index now₁ = Except.ok d₁ ∧
        load_project_settings d₁ project_id =
          Except.ok (some ProjectSettings.default)) ∧
    (∃ d₂, save_project_settings d project_id settings now₂ = Except.ok d₂ ∧
        load_session_progress d₂ project_id = Except.ok (some 0)) := by
  have hany : l.any (fun s => s.project_id == project_id) = false :=
    List.any_eq_false.mpr (fun x hx => by simp [hnone x hx])
  constructor
  · refine ⟨Doc.present (some (upsertProgress l project_id word_index now₁)),
      ?_, ?_⟩
    · rw [save_session_progress, hd]
      rfl
    · simp only [load_project_settings, Option.getD]
      rw [upsertProgress, if_neg (by simp [hany]),
        find?_append_left_neg _ _ _ hnone,
        List.find?_cons_of_pos _ (by simp)]
      rfl
  · refine ⟨Doc.present (some (upsertSettings l project_id settings now₂)),
      ?_, ?_⟩
    · rw [save_project_settings, hd]
      rfl
    · simp only [load_session_progress, Option.getD]
      rw [upsertSettings, if_neg (by simp [hany]),
        find?_append_left_neg _ _ _ hnone,
        List.find?_cons_of_pos _ (by simp)]
      rfl

theorem settings_progress_independence_witness :
    (∃ d₁, save_session_progress Doc.missing "p" 2 "t0" = Except.ok d₁ ∧
        load_project_settings d₁ "p" =
          Except.ok (some ProjectSettings.default)) ∧
    (∃ d₂, save_project_settings Doc.missing "p" ProjectSettings.default "t1" =
          Except.ok d₂ ∧
        load_session_progress d₂ "p" = Except.ok (some 0)) :=
  settings_progress_independence Doc.missing [] "p" 2
    ProjectSettings.default "t0" "t1" (by rfl) (by simp)

theorem any_updateFirst_of_preserve {α : Type} (p : α → Bool) (f : α → α)
    (l : List α) (hf : ∀ a, p a = true → p (f a) = true)
    (h : l.any p = true) : (updateFirst p f l).any p = true := by
  induction l with
  | nil => cases h
  | cons x xs ih =>
    simp only [updateFirst]
    cases hp : p x with
    | true =>
      simp [List.any_cons, hf x hp]
    | false =>
      simp only [List.any_cons, hp, Bool.false_or] at h
      simp [List.any_cons, hp, ih h]

theorem updateFirst_const_idem {α : Type} (p : α → Bool) (m : α)
    (hm : p m = true) (l : List α) :
    updateFirst p (fun _ => m) (updateFirst p (fun _ => m) l) =
      updateFirst p (fun _ => m) l := by
  induction l with
  | nil => rfl
  | cons x xs ih =>
    simp only [updateFirst]
    cases hp : p x with
    | true => simp [updateFirst, hm]
    | false => simp [updateFirst, hp, ih]

/-- C8: Project upsert identity, idempotence and id-uniqueness — when the
id is already present the collection length is unchanged (only that entry
is replaced); upserting the same metadata twice gives the same collection
as upserting it once; and uniqueness of `id` across the collection is
preserved by every upsert. -/
theorem project_upsert_invariants (projects : List FileMetadata)
    (metadata : FileMetadata) :
    (projects.any (fun p => p.id == metadata.id) = true →
        (upsertProject projects metadata).length = projects.length) ∧
    upsertProject (upsertProject projects metadata) metadata =
        upsertProject projects metadata ∧
    ((projects.map (fun p => p.id)).Nodup →
        ((upsertProject projects metadata).map (fun p => p.id)).Nodup) := by
  refine ⟨?_, ?_, ?_⟩
  · intro hany
    rw [upsertProject, if_pos hany, updateFirst_length]
  · cases hany : projects.any (fun p => p.id == metadata.id) with
    | true =>
      have h1 : upsertProject projects metadata =
          updateFirst (fun p => p.id == metadata.id) (fun _ => metadata)
            projects := by
        rw [upsertProject, if_pos hany]
      rw [h1, upsertProject,
        if_pos (any_updateFirst_of_preserve _ _ _ (fun a _ => by simp) hany)]
      exact updateFirst_const_idem _ _ (by simp) projects
    | false =>
      have hneg : ∀ x ∈ projects, (x.id == metadata.id) = false :=
        fun x hx => by simpa using List.any_eq_false.mp hany x hx
      have h1 : upsertProject projects metadata = projects ++ [metadata] := by
        rw [upsertProject, if_neg (by simp [hany])]
      have hany2 : (projects ++ [metadata]).any
          (fun p => p.id == metadata.id) = true := by
        simp [List.any_append]
      rw [h1, upsertProject, if_pos hany2,
        updateFirst_append_left_neg _ _ _ _ hneg]
      simp [updateFirst]
  · intro hnd
    cases hany : projects.any (fun p => p.id == metadata.id) with
    | true =>
      rw [upsertProject, if_pos hany,
        map_updateFirst (fun p => p.id == metadata.id) (fun _ => metadata)
          (fun p => p.id) projects (fun a ha => (beq_iff_eq.mp ha).symm)]
      exact hnd
    | false =>
      rw [upsertProject, if_neg (by simp [hany]), List.map_append,
        List.nodup_append]
      refine ⟨hnd, by simp, ?_⟩
      intro a ha hb
      obtain ⟨x, hx, rfl⟩ := List.mem_map.mp ha
      have hxm : (x.id == metadata.id) = false := by
        simpa using List.any_eq_false.mp hany x hx
      have : x.id = metadata.id := by simpa using hb
      rw [this] at hxm
      simp at hxm

theorem project_upsert_invariants_witness :
    (upsertProject [sampleMeta] sampleMeta2).length = [sampleMeta].length ∧
    upsertProject (upsertProject [sampleMeta] sampleMeta2) sampleMeta2 =
        upsertProject [sampleMeta] sampleMeta2 ∧
    ((upsertProject [sampleMeta] sampleMeta2).map (fun p => p.id)).Nodup := by
  have h := project_upsert_invariants [sampleMeta] sampleMeta2
  exact ⟨h.1 (by decide), h.2.1, h.2.2 (by decide)⟩

/-- C9: Import contract — `import_file` fails with the invalid-input
error when `source_path` has no extractable file name component; on
success the returned metadata's `total_words` is the word count of the
private copy (which holds exactly the source's content) and its
`current_word_index` is `0`. -/
theorem import_contract (files_dir : String)
    (sourceContent : List (Option (List Char))) (project_id now : String) :
    import_file files_dir none sourceContent project_id now =
        Except.error "Invalid file name" ∧
    ∀ filename, ∃ r,
      import_file files_dir (some filename) sourceContent project_id now =
          Except.ok r ∧
        r.savedContent = sourceContent ∧
        r.meta.total_words = import_word_count r.savedContent ∧
        r.meta.current_word_index = 0 :=
  ⟨rfl, fun _ => ⟨_, rfl, rfl, rfl, rfl⟩⟩

theorem ite_any_updateFirst_getElem? {α : Type} (p : α → Bool) (f : α → α)
    (new : α) (l : List α) (i : Nat) (hi : i < l.length)
    (hne : p l[i] = false) :
    (if l.any p then updateFirst p f l else l ++ [new])[i]? = some l[i] := by
  have harg : ∀ a, l[i]? = some a → p a = false := by
    intro a ha
    rw [List.getElem?_eq_getElem hi] at ha
    cases ha
    exact hne
  by_cases hany : l.any p = true
  · rw [if_pos hany, updateFirst_getElem? _ _ _ i harg,
      List.getElem?_eq_getElem hi]
  · rw [if_neg hany,
      List.getElem?_append_left hi, List.getElem?_eq_getElem hi]

theorem ite_any_updateFirst_length {α : Type} (p : α → Bool) (f : α → α)
    (new : α) (l : List α) :
    (if l.any p then updateFirst p f l else l ++ [new]).length =
      if l.any p then l.length else l.length + 1 := by
  by_cases hany : l.any p = true
  · rw [if_pos hany, if_pos hany, updateFirst_length]
  · rw [if_neg hany, if_neg hany]
    simp

/-- C10: Implicit upsert frame — each of the three upsert operations
leaves every record whose key differs from the upserted one unchanged at
its position (hence preserves the relative order of pre-existing
records), changes the collection length only by appending, and appends
the new record at the end exactly when no record with the key exists. -/
theorem upsert_frame_effects (projects : List FileMetadata)
    (metadata : FileMetadata) (sessions : List ProjectSession)
    (project_id : String) (word_index : Nat) (settings : ProjectSettings)
    (now : String) :
    ((upsertProject projects metadata).length =
        (if projects.any (fun p => p.id == metadata.id) then projects.length
         else projects.length + 1) ∧
      (∀ i, ∀ hi : i < projects.length, projects[i].id ≠ metadata.id →
        (upsertProject projects metadata)[i]? = some projects[i]) ∧
      (projects.any (fun p => p.id == metadata.id) = false →
        upsertProject projects metadata = projects ++ [metadata])) ∧
    ((upsertProgress sessions project_id word_index now).length =
        (if sessions.any (fun s => s.project_id == project_id) then
          sessions.length
         else sessions.length + 1) ∧
      (∀ i, ∀ hi : i < sessions.length, sessions[i].project_id ≠ project_id →
        (upsertProgress sessions project_id word_index now)[i]? =
          some sessions[i]) ∧
      (sessions.any (fun s => s.project_id == project_id) = false →
        upsertProgress sessions project_id word_index now =
          sessions ++ [{ session_id := project_id ++ "_session"
                         project_id := project_id
                         current_word_index := word_index
                         last_read_date := now
                         settings := ProjectSettings.default }])) ∧
    ((upsertSettings sessions project_id settings now).length =
        (if sessions.any (fun s => s.project_id == project_id) then
          sessions.length
         else sessions.length + 1) ∧
      (∀ i, ∀ hi : i < sessions.length, sessions[i].project_id ≠ project_id →
        (upsertSettings sessions project_id settings now)[i]? =
          some sessions[i]) ∧
      (sessions.any (fun s => s.project_id == project_id) = false →
        upsertSettings sessions project_id settings now =
          sessions ++ [{ session_id := project_id ++ "_session"
                         project_id := project_id
                         current_word_index := 0
                         last_read_date := now
                         settings := settings }])) := by
  refine ⟨⟨?_, ?_, ?_⟩, ⟨?_, ?_, ?_⟩, ⟨?_, ?_, ?_⟩⟩
  · rw [upsertProject]
    exact ite_any_updateFirst_length _ _ _ _
  · intro i hi hne
    rw [upsertProject]
    exact ite_any_updateFirst_getElem? _ _ _ _ i hi (beq_eq_false_iff_ne.mpr hne)
  · intro hany
    rw [upsertProject, if_neg (by simp [hany])]
  · rw [upsertProgress]
    exact ite_any_updateFirst_length _ _ _ _
  · intro i hi hne
    rw [upsertProgress]
    exact ite_any_updateFirst_getElem? _ _ _ _ i hi (beq_eq_false_iff_ne.mpr hne)
  · intro hany
    rw [upsertProgress, if_neg (by simp [hany])]
  · rw [upsertSettings]
    exact ite_any_updateFirst_length _ _ _ _
  · intro i hi hne
    rw [upsertSettings]
    exact ite_any_updateFirst_getElem? _ _ _ _ i hi (beq_eq_false_iff_ne.mpr hne)
  · intro hany
    rw [upsertSettings, if_neg (by simp [hany])]

theorem upsert_frame_effects_witness :
    (upsertProject [sampleMeta] otherMeta)[0]? = some sampleMeta ∧
    upsertProject [sampleMeta] otherMeta = [sampleMeta] ++ [otherMeta] ∧
    (upsertProgress [sampleSession] "q" 3 "t9")[0]? = some sampleSession ∧
    upsertProgress [sampleSession] "q" 3 "t9" =
        [sampleSession] ++ [{ session_id := "q" ++ "_session"
                              project_id := "q"
                              current_word_index := 3
                              last_read_date := "t9"
                              settings := ProjectSettings.default }] ∧
    (upsertSettings [sampleSession] "q" ProjectSettings.default "t9")[0]? =
        some sampleSession ∧
    upsertSettings [sampleSession] "q" ProjectSettings.default "t9" =
        [sampleSession] ++ [{ session_id := "q" ++ "_session"
                              project_id := "q"
                              current_word_index := 0
                              last_read_date := "t9"
                              settings := ProjectSettings.default }] := by
  have h := upsert_frame_effects [sampleMeta] otherMeta [sampleSession] "q" 3
    ProjectSettings.default "t9"
  exact ⟨h.1.2.1 0 (by decide) (by decide), h.1.2.2 (by decide),
    h.2.1.2.1 0 (by decide) (by decide), h.2.1.2.2 (by decide),
    h.2.2.2.1 0 (by decide) (by decide), h.2.2.2.2 (by decide)⟩
